import Mathlib

/-!
Verification of the failure-classification and trigger logic of
`velero-watchdog.py`.

The embedding models the two functions with real decision content:

* `find_failed_backup_schedules` (lines 78-125 of the script): a pure pass
  over a list of backup specs that builds the `recent_failures` dictionary,
  with Python exceptions modelled as `Except.error` (an uncaught exception
  aborts the whole pass);
* `trigger_backups_from_schedules` (lines 128-146): a pass over schedule
  names that shells out (`execute`, modelled as an oracle from schedule name
  to captured stdout) and scrapes each output with
  `re.findall(r'Backup request "(.*?)"', output)[0]`.

Timestamps: the script calls `datetime.fromisoformat` on the raw string and
compares `datetime.now(timezone.utc) - start_timestamp <= timedelta(hours=
window_hours)`.  Instants are modelled as integers (seconds), `timedelta(
hours=h)` as `3600 * h`, and the external `datetime` library at its
boundary: a well-formed string denotes an instant, a malformed one makes
`fromisoformat` raise `ValueError`.  The call `datetime.now(timezone.utc)`
at line 98 is modelled by the explicit parameter `now`.
-/

namespace VeleroWatchdog

/-- Model of a raw timestamp string at the boundary of the external
`datetime` library: a well-formed ISO string denotes a UTC instant (seconds
since the epoch); a malformed string makes `datetime.fromisoformat` raise
`ValueError`. -/
inductive TimeStr where
  | wellFormed (instant : Int)
  | malformed (raw : String)
deriving DecidableEq

/-- Model of `datetime.fromisoformat(s).replace(tzinfo=timezone.utc)`:
`some` the denoted UTC instant, or `none` when the library raises
`ValueError`. -/
def fromisoformat : TimeStr → Option Int
  | .wellFormed t => some t
  | .malformed _ => none

/-- One entry of `metadata.ownerReferences`; the script reads it with
`owner_ref.get("kind")` and `owner_ref.get("name")`, so both fields may be
absent. -/
structure OwnerReference where
  kind : Option String
  name : Option String
deriving DecidableEq

/-- The `metadata` mapping of a backup spec: `name`, `ownerReferences` and
`labels` keys, each possibly absent.  The script reads `name` by raising
lookup (`backup["metadata"]["name"]`) and `ownerReferences` with a `.get`
defaulting to `[]`; it never reads `labels`. -/
structure Metadata where
  name : Option String
  ownerReferences : Option (List OwnerReference)
  labels : Option (List (String × String))
deriving DecidableEq

/-- The `status` mapping of a backup spec, read with
`status.get("phase")` and `status.get("startTimestamp")`. -/
structure BackupStatus where
  phase : Option String
  startTimestamp : Option TimeStr
deriving DecidableEq

/-- One velero backup spec as the script consumes it:
`{metadata: {...}?, status: {...}?}`, either mapping possibly absent
(`backup.get("status", {})`, `backup.get("metadata", {})`). -/
structure Backup where
  metadata : Option Metadata
  status : Option BackupStatus
deriving DecidableEq

/-- Line 18: `PHASES = ["PartiallyFailed", "Failed"]`. -/
def PHASES : List String := ["PartiallyFailed", "Failed"]

/-- The default for `backup.get("status", {})`: an empty mapping, whose
`.get` calls all return `None`. -/
def emptyStatus : BackupStatus := ⟨none, none⟩

/-- The default for `backup.get("metadata", {})`. -/
def emptyMetadata : Metadata := ⟨none, none, none⟩

/-- Python `phase in PHASES` (line 111); `phase` may be `None`, which is
not a member of the list. -/
def phaseInFailedPhases (phase : Option String) : Bool :=
  match phase with
  | some p => PHASES.contains p
  | none => false

/-- Python `timedelta(hours=h)` as a number of seconds. -/
def timedeltaHours (h : Int) : Int := 3600 * h

/-- The `recent_failures` dictionary (line 97): an insertion-ordered
mapping from `owner_ref.get("name")` (possibly `None`) to the list of
failed backup names appended under it. -/
abbrev RecentFailures := List (Option String × List String)

/-- Line 123: `recent_failures.setdefault(schedule_name, []).append(
backup_name)` — append to the existing entry for the key, or add a new
entry `(key, [value])` at the end. -/
def setdefaultAppend (m : RecentFailures) (k : Option String) (v : String) :
    RecentFailures :=
  match m with
  | [] => [(k, [v])]
  | (k₀, vs₀) :: rest =>
      if k₀ = k then (k₀, vs₀ ++ [v]) :: rest
      else (k₀, vs₀) :: setdefaultAppend rest k v

/-- The inner loop over owner references (lines 115-123): for each
reference whose `kind` is `"Schedule"`, look up `backup["metadata"]["name"]`
(a raising lookup: `KeyError` when `metadata` or `name` is absent) and
record it under the reference's `name`. -/
def processOwnerReferences (backup : Backup) (m : RecentFailures) :
    List OwnerReference → Except String RecentFailures
  | [] => .ok m
  | ref :: rest =>
      if ref.kind = some "Schedule" then
        match backup.metadata with
        | none => .error "KeyError: metadata"
        | some md =>
            match md.name with
            | none => .error "KeyError: name"
            | some backupName =>
                processOwnerReferences backup
                  (setdefaultAppend m ref.name backupName) rest
      else processOwnerReferences backup m rest

/-- One iteration of the main loop of `find_failed_backup_schedules`
(lines 99-123) acting on the accumulator: skip a record with no
`startTimestamp`, raise (`.error`) on a malformed one, and on a failed
in-window record run the owner-reference loop. -/
def processBackup (window_hours now : Int) (m : RecentFailures)
    (backup : Backup) : Except String RecentFailures :=
  match (backup.status.getD emptyStatus).startTimestamp with
  | none => .ok m
  | some tsStr =>
      match fromisoformat tsStr with
      | none => .error "ValueError: invalid isoformat string"
      | some startTimestamp =>
          if phaseInFailedPhases (backup.status.getD emptyStatus).phase
              && decide (now - startTimestamp ≤ timedeltaHours window_hours)
          then
            processOwnerReferences backup m
              ((backup.metadata.getD emptyMetadata).ownerReferences.getD [])
          else .ok m

/-- The main loop of `find_failed_backup_schedules`, threading the
`recent_failures` accumulator; an uncaught exception aborts the whole
pass. -/
def findGo (window_hours now : Int) (m : RecentFailures) :
    List Backup → Except String RecentFailures
  | [] => .ok m
  | b :: rest =>
      match processBackup window_hours now m b with
      | .error e => .error e
      | .ok m₁ => findGo window_hours now m₁ rest

/-- `find_failed_backup_schedules(backups_specs, window_hours)` (lines
78-125), with `datetime.now(timezone.utc)` passed explicitly as `now`.
Returns the `recent_failures` dictionary, or `.error` when the Python code
would raise. -/
def find_failed_backup_schedules (backups_specs : List Backup)
    (window_hours now : Int) : Except String RecentFailures :=
  findGo window_hours now [] backups_specs

/-- The flattening `chain.from_iterable(schedules.values())` performed by
`main` (line 236) on the classification result. -/
def allBackupNames (m : RecentFailures) : List String :=
  (m.map Prod.snd).flatten

/-- The literal text of the pattern prefix in
`re.findall(r'Backup request "(.*?)"', output)`. -/
def backupRequestPattern : List Char := "Backup request \"".toList

/-- Scanner for the non-overlapping matches of
`Backup request "(.*?)"`: at each position that starts with the literal
prefix, the non-greedy capture takes the characters up to the next double
quote (`.` does not cross a newline); on success scanning resumes after the
closing quote, on failure one character later.  The fuel argument is
bounded below by the length of the remaining text, and every recursive call
consumes at least one character, so the fuel never runs out on the initial
call `matchesAux s.length s`. -/
def matchesAux : Nat → List Char → List String
  | 0, _ => []
  | _ + 1, [] => []
  | fuel + 1, c :: rest =>
      if backupRequestPattern.isPrefixOf (c :: rest) then
        let after := (c :: rest).drop backupRequestPattern.length
        let cap := after.takeWhile (fun ch => ch ≠ '"' && ch ≠ '\n')
        let rem := after.drop cap.length
        if rem.head? = some '"' then
          String.mk cap :: matchesAux fuel rem.tail
        else matchesAux fuel rest
      else matchesAux fuel rest

/-- `re.findall(r'Backup request "(.*?)"', output)` (line 142): the list of
captured backup identifiers, in order. -/
def backupRequestMatches (s : List Char) : List String :=
  matchesAux s.length s

/-- One iteration of `trigger_backups_from_schedules` (lines 138-144):
run the external command (its stdout given by the oracle `commandOutput`),
take match `[0]` — raising `IndexError` when there is none — and append the
new backup name. -/
def triggerOne (commandOutput : String → String) (acc : List String)
    (schedule : String) : Except String (List String) :=
  match backupRequestMatches (commandOutput schedule).toList with
  | [] => .error "IndexError: list index out of range"
  | newBkp :: _ => .ok (acc ++ [newBkp])

/-- The loop of `trigger_backups_from_schedules`, threading the
`new_backups` accumulator; an uncaught `IndexError` aborts the loop. -/
def triggerGo (commandOutput : String → String) (acc : List String) :
    List String → Except String (List String)
  | [] => .ok acc
  | s :: rest =>
      match triggerOne commandOutput acc s with
      | .error e => .error e
      | .ok acc₁ => triggerGo commandOutput acc₁ rest

/-- `trigger_backups_from_schedules(schedules_list)` (lines 128-146), with
`execute(f"velero backup create --from-schedule {schedule}")` modelled by
the oracle `commandOutput`.  Returns the list of newly created backups, or
`.error` when the Python code would raise. -/
def trigger_backups_from_schedules (commandOutput : String → String)
    (schedules_list : List String) : Except String (List String) :=
  triggerGo commandOutput [] schedules_list

/-- Replace the `labels` mapping of a record by an absent one, leaving every
field the classifier reads untouched; used to state that the classifier
depends only on the fields it reads. -/
def eraseLabels (b : Backup) : Backup :=
  ⟨b.metadata.map (fun md => ⟨md.name, md.ownerReferences, none⟩), b.status⟩

/-- Membership of a (schedule key, backup name) pair in the
`recent_failures` dictionary. -/
def MemPair (m : RecentFailures) (k : Option String) (v : String) : Prop :=
  ∃ vs, (k, vs) ∈ m ∧ v ∈ vs

/-- Membership of a (schedule key, backup name) pair in a classification
outcome: the pass completed and the pair is in the returned dictionary. -/
def attributed (r : Except String RecentFailures) (k : Option String)
    (v : String) : Prop :=
  ∃ m, r = Except.ok m ∧ MemPair m k v

/-- Every entry of the dictionary carries at least one backup name. -/
def ValuesNonempty (m : RecentFailures) : Prop :=
  ∀ p ∈ m, p.2 ≠ []

/-- The record `b` justifies attributing backup name `v` to schedule key
`k`: its phase is one of the failed phases, its start timestamp parses and
falls inside the window, its metadata names it `v`, and one of its owner
references of kind `Schedule` carries the name `k`. -/
def JustifiedBy (window_hours now : Int) (b : Backup) (k : Option String)
    (v : String) : Prop :=
  (∃ ts start, (b.status.getD emptyStatus).startTimestamp = some ts ∧
      fromisoformat ts = some start ∧
      ((b.status.getD emptyStatus).phase = some "PartiallyFailed" ∨
        (b.status.getD emptyStatus).phase = some "Failed") ∧
      now - start ≤ timedeltaHours window_hours) ∧
  ∃ md, b.metadata = some md ∧ md.name = some v ∧
    ∃ ref ∈ md.ownerReferences.getD [],
      ref.kind = some "Schedule" ∧ ref.name = k

/-- A failed, in-window record with no owner references but a `schedule`
label pointing at `"daily"`. -/
def labelOnlyRecord : Backup :=
  ⟨some ⟨some "b1", none, some [("schedule", "daily")]⟩,
   some ⟨some "Failed", some (.wellFormed 0)⟩⟩

/-- A failed, in-window record with neither owner references nor labels. -/
def orphanRecord : Backup :=
  ⟨some ⟨some "b1", none, none⟩,
   some ⟨some "Failed", some (.wellFormed 0)⟩⟩

/-- A record whose `startTimestamp` is present but not parseable. -/
def malformedRecord : Backup :=
  ⟨some ⟨some "bad", none, none⟩,
   some ⟨some "Failed", some (.malformed "not-a-timestamp")⟩⟩

/-- A well-formed failed, in-window record owned by schedule `"daily"`. -/
def okRecord : Backup :=
  ⟨some ⟨some "good", some [⟨some "Schedule", some "daily"⟩], none⟩,
   some ⟨some "Failed", some (.wellFormed 0)⟩⟩

/-- A failed, in-window record with two owner references of kind
`Schedule` carrying distinct names. -/
def twoOwnersRecord : Backup :=
  ⟨some ⟨some "b1",
         some [⟨some "Schedule", some "s1"⟩, ⟨some "Schedule", some "s2"⟩],
         none⟩,
   some ⟨some "Failed", some (.wellFormed 0)⟩⟩

/-- A record with an absent `phase` whose present `startTimestamp` is not
parseable. -/
def missingPhaseRecord : Backup :=
  ⟨some ⟨some "b1", none, none⟩,
   some ⟨none, some (.malformed "not-a-timestamp")⟩⟩

/-- A record with no `status` mapping at all. -/
def noStatusRecord : Backup := ⟨some ⟨some "b9", none, none⟩, none⟩

/-- An external-command oracle for the trigger step: the command for
schedule `"s1"` produces output with no `Backup request "..."` match, the
command for any other schedule produces a parseable output. -/
def failingOutput : String → String := fun s =>
  if s = "s1" then "An error occurred: schedule not found"
  else "Backup request \"b2-20240101\" submitted successfully."

/-! ## Basic lemmas -/

lemma phaseInFailedPhases_iff (phase : Option String) :
    phaseInFailedPhases phase = true ↔
      phase = some "PartiallyFailed" ∨ phase = some "Failed" := by
  cases phase with
  | none => simp [phaseInFailedPhases]
  | some p =>
      simp [phaseInFailedPhases, PHASES, List.contains_eq_any_beq]

lemma processOwnerReferences_no_schedule (b : Backup) (m : RecentFailures)
    (refs : List OwnerReference)
    (h : ∀ ref ∈ refs, ref.kind ≠ some "Schedule") :
    processOwnerReferences b m refs = .ok m := by
  induction refs with
  | nil => rfl
  | cons r rest ih =>
      have hr : r.kind ≠ some "Schedule" := h r (by simp)
      simp only [processOwnerReferences, if_neg hr]
      exact ih (fun ref href => h ref (by simp [href]))

lemma processBackup_skip (w now : Int) (b : Backup)
    (hts : ∀ ts, (b.status.getD emptyStatus).startTimestamp = some ts →
      fromisoformat ts ≠ none)
    (hrefs : ∀ ref ∈ (b.metadata.getD emptyMetadata).ownerReferences.getD [],
      ref.kind ≠ some "Schedule") :
    ∀ m, processBackup w now m b = .ok m := by
  intro m
  unfold processBackup
  cases hst : (b.status.getD emptyStatus).startTimestamp with
  | none => rfl
  | some ts =>
      cases hfi : fromisoformat ts with
      | none => exact absurd hfi (hts ts hst)
      | some start =>
          by_cases hg : (phaseInFailedPhases (b.status.getD emptyStatus).phase
              && decide (now - start ≤ timedeltaHours w)) = true
          · simp only [hfi, hg, if_true]
            exact processOwnerReferences_no_schedule b m _ hrefs
          · simp only [Bool.not_eq_true] at hg
            simp only [hfi, hg, Bool.false_eq_true, if_false]

lemma findGo_append (w now : Int) (m : RecentFailures) (xs ys : List Backup) :
    findGo w now m (xs ++ ys) =
      match findGo w now m xs with
      | .error e => .error e
      | .ok m₁ => findGo w now m₁ ys := by
  induction xs generalizing m with
  | nil => rfl
  | cons b rest ih =>
      simp only [List.cons_append, findGo]
      cases processBackup w now m b with
      | error e => rfl
      | ok m₁ => exact ih m₁

lemma find_skip (w now : Int) (b : Backup) (pre post : List Backup)
    (hb : ∀ m, processBackup w now m b = .ok m) :
    find_failed_backup_schedules (pre ++ b :: post) w now =
      find_failed_backup_schedules (pre ++ post) w now := by
  unfold find_failed_backup_schedules
  rw [findGo_append, findGo_append]
  cases findGo w now [] pre with
  | error e => rfl
  | ok m₁ => simp only [findGo, hb m₁]

lemma processOwnerReferences_eraseLabels (b : Backup) (m : RecentFailures)
    (refs : List OwnerReference) :
    processOwnerReferences (eraseLabels b) m refs =
      processOwnerReferences b m refs := by
  induction refs generalizing m with
  | nil => rfl
  | cons r rest ih =>
      by_cases hr : r.kind = some "Schedule"
      · cases hmd : b.metadata with
        | none =>
            have h1 : (eraseLabels b).metadata = none := by
              simp [eraseLabels, hmd]
            simp [processOwnerReferences, if_pos hr, h1, hmd]
        | some md =>
            have h1 : (eraseLabels b).metadata =
                some ⟨md.name, md.ownerReferences, none⟩ := by
              simp [eraseLabels, hmd]
            cases hn : md.name with
            | none => simp [processOwnerReferences, if_pos hr, h1, hmd, hn]
            | some n =>
                simp only [processOwnerReferences, if_pos hr, h1, hmd, hn]
                exact ih _
      · simp only [processOwnerReferences, if_neg hr]
        exact ih m

lemma processBackup_eraseLabels (w now : Int) (m : RecentFailures)
    (b : Backup) :
    processBackup w now m (eraseLabels b) = processBackup w now m b := by
  unfold processBackup
  have hst : (eraseLabels b).status = b.status := rfl
  rw [hst]
  cases hts : (b.status.getD emptyStatus).startTimestamp with
  | none => rfl
  | some ts =>
      cases hfi : fromisoformat ts with
      | none => simp only [hfi]
      | some start =>
          have hrefs :
              ((eraseLabels b).metadata.getD emptyMetadata).ownerReferences =
                (b.metadata.getD emptyMetadata).ownerReferences := by
            cases hmd : b.metadata with
            | none => simp [eraseLabels, hmd]
            | some md => simp [eraseLabels, hmd]
          simp only [hfi, hrefs, processOwnerReferences_eraseLabels]

lemma findGo_eraseLabels (w now : Int) (m : RecentFailures)
    (l : List Backup) :
    findGo w now m (l.map eraseLabels) = findGo w now m l := by
  induction l generalizing m with
  | nil => rfl
  | cons b rest ih =>
      simp only [List.map_cons, findGo, processBackup_eraseLabels]
      cases processBackup w now m b with
      | error e => rfl
      | ok m₁ => exact ih m₁

lemma memPair_setdefaultAppend_self (m : RecentFailures) (k : Option String)
    (v : String) : MemPair (setdefaultAppend m k v) k v := by
  induction m with
  | nil => exact ⟨[v], by simp [setdefaultAppend], by simp⟩
  | cons p rest ih =>
      obtain ⟨k₀, vs₀⟩ := p
      by_cases hk : k₀ = k
      · subst hk
        exact ⟨vs₀ ++ [v], by simp [setdefaultAppend], by simp⟩
      · obtain ⟨vs, hmem, hv⟩ := ih
        refine ⟨vs, ?_, hv⟩
        simp only [setdefaultAppend, if_neg hk]
        exact List.mem_cons_of_mem _ hmem

lemma memPair_setdefaultAppend_mono (m : RecentFailures)
    (k₁ : Option String) (v₁ : String) {k : Option String} {v : String}
    (h : MemPair m k v) : MemPair (setdefaultAppend m k₁ v₁) k v := by
  induction m with
  | nil => rcases h with ⟨vs, hmem, hv⟩; simp at hmem
  | cons p rest ih =>
      obtain ⟨k₀, vs₀⟩ := p
      rcases h with ⟨vs, hmem, hv⟩
      rcases List.mem_cons.mp hmem with heq | htail
      · injection heq with hk0 hvs
        subst hk0
        by_cases hk : k = k₁
        · refine ⟨vs₀ ++ [v₁], ?_, ?_⟩
          · simp [setdefaultAppend, if_pos hk]
          · exact List.mem_append_left _ (hvs ▸ hv)
        · refine ⟨vs₀, ?_, hvs ▸ hv⟩
          simp only [setdefaultAppend, if_neg hk]
          simp
      · by_cases hk : k₀ = k₁
        · simp only [setdefaultAppend, if_pos hk]
          exact ⟨vs, List.mem_cons_of_mem _ htail, hv⟩
        · simp only [setdefaultAppend, if_neg hk]
          obtain ⟨vs₂, hm₂, hv₂⟩ := ih ⟨vs, htail, hv⟩
          exact ⟨vs₂, List.mem_cons_of_mem _ hm₂, hv₂⟩

lemma processOwnerReferences_mono (b : Backup) (refs : List OwnerReference) :
    ∀ m m₁, processOwnerReferences b m refs = .ok m₁ →
      ∀ k v, MemPair m k v → MemPair m₁ k v := by
  induction refs with
  | nil =>
      intro m m₁ h k v hm
      simp only [processOwnerReferences] at h
      injection h with h1
      exact h1 ▸ hm
  | cons r rest ih =>
      intro m m₁ h k v hm
      by_cases hr : r.kind = some "Schedule"
      · simp only [processOwnerReferences, if_pos hr] at h
        cases hmd : b.metadata with
        | none => simp [hmd] at h
        | some md =>
            cases hn : md.name with
            | none => simp [hmd, hn] at h
            | some n =>
                simp only [hmd, hn] at h
                exact ih _ _ h k v (memPair_setdefaultAppend_mono m r.name n hm)
      · simp only [processOwnerReferences, if_neg hr] at h
        exact ih _ _ h k v hm

lemma processOwnerReferences_adds (b : Backup) (refs : List OwnerReference) :
    ∀ m m₁, processOwnerReferences b m refs = .ok m₁ →
      ∀ ref ∈ refs, ref.kind = some "Schedule" →
      ∀ md n, b.metadata = some md → md.name = some n →
      MemPair m₁ ref.name n := by
  induction refs with
  | nil => intro m m₁ h ref href; simp at href
  | cons r rest ih =>
      intro m m₁ h ref href hkind md n hmd hn
      rcases List.mem_cons.mp href with heq | htail
      · subst heq
        simp only [processOwnerReferences, if_pos hkind] at h
        simp only [hmd, hn] at h
        exact processOwnerReferences_mono b rest _ _ h _ _
          (memPair_setdefaultAppend_self m ref.name n)
      · by_cases hr : r.kind = some "Schedule"
        · simp only [processOwnerReferences, if_pos hr] at h
          simp only [hmd, hn] at h
          exact ih _ _ h ref htail hkind md n hmd hn
        · simp only [processOwnerReferences, if_neg hr] at h
          exact ih _ _ h ref htail hkind md n hmd hn

lemma findGo_mono (w now : Int) (l : List Backup) :
    ∀ m m₁, findGo w now m l = .ok m₁ →
      ∀ k v, MemPair m k v → MemPair m₁ k v := by
  induction l with
  | nil =>
      intro m m₁ h k v hm
      simp only [findGo] at h
      injection h with h1
      exact h1 ▸ hm
  | cons b rest ih =>
      intro m m₁ h k v hm
      simp only [findGo] at h
      cases hp : processBackup w now m b with
      | error e => simp [hp] at h
      | ok m₂ =>
          simp only [hp] at h
          refine ih _ _ h k v ?_
          unfold processBackup at hp
          cases hts : (b.status.getD emptyStatus).startTimestamp with
          | none => simp [hts] at hp; exact hp ▸ hm
          | some ts =>
              cases hfi : fromisoformat ts with
              | none => simp [hts, hfi] at hp
              | some start =>
                  simp only [hts, hfi] at hp
                  by_cases hg : (phaseInFailedPhases
                      (b.status.getD emptyStatus).phase
                      && decide (now - start ≤ timedeltaHours w)) = true
                  · simp only [hg, if_true] at hp
                    exact processOwnerReferences_mono b _ _ _ hp k v hm
                  · simp only [Bool.not_eq_true] at hg
                    simp only [hg, Bool.false_eq_true, if_false] at hp
                    injection hp with h1
                    exact h1 ▸ hm

lemma findGo_adds (w now : Int) (b : Backup)
    (st : BackupStatus) (hstat : b.status = some st)
    (ts : TimeStr) (hts : st.startTimestamp = some ts)
    (start : Int) (hfi : fromisoformat ts = some start)
    (hph : phaseInFailedPhases st.phase = true)
    (hw : now - start ≤ timedeltaHours w)
    (md : Metadata) (hmd : b.metadata = some md)
    (n : String) (hn : md.name = some n)
    (ref : OwnerReference) (href : ref ∈ md.ownerReferences.getD [])
    (hkind : ref.kind = some "Schedule") :
    ∀ l m₀ m, findGo w now m₀ l = .ok m → b ∈ l → MemPair m ref.name n := by
  intro l
  induction l with
  | nil => intro m₀ m h hb; simp at hb
  | cons a rest ih =>
      intro m₀ m h hb
      simp only [findGo] at h
      cases hp : processBackup w now m₀ a with
      | error e => simp [hp] at h
      | ok m₂ =>
          simp only [hp] at h
          rcases List.mem_cons.mp hb with heq | htail
          · subst heq
            have hp2 : processOwnerReferences b m₀
                (md.ownerReferences.getD []) = .ok m₂ := by
              unfold processBackup at hp
              simp only [hstat, Option.getD_some, hts, hfi, hph, hw,
                decide_True, Bool.and_self, if_true, hmd] at hp
              exact hp
            have hm₂ : MemPair m₂ ref.name n :=
              processOwnerReferences_adds b _ _ _ hp2 ref href hkind
                md n hmd hn
            exact findGo_mono w now rest _ _ h ref.name n hm₂
          · exact ih m₂ m h htail

lemma findGo_malformed (w now : Int) : ∀ (l : List Backup),
    (∃ b ∈ l, ∃ ts,
      (b.status.getD emptyStatus).startTimestamp = some ts ∧
      fromisoformat ts = none) →
    ∀ m, ∃ e, findGo w now m l = .error e := by
  intro l
  induction l with
  | nil =>
      intro h m
      rcases h with ⟨b, hb, _⟩
      simp at hb
  | cons a rest ih =>
      intro h m
      rcases h with ⟨b, hb, ts, hts, hfi⟩
      rcases List.mem_cons.mp hb with heq | htail
      · subst heq
        refine ⟨"ValueError: invalid isoformat string", ?_⟩
        have hp : processBackup w now m b
            = .error "ValueError: invalid isoformat string" := by
          unfold processBackup
          simp [hts, hfi]
        simp [findGo, hp]
      · cases hp : processBackup w now m a with
        | error e => exact ⟨e, by simp [findGo, hp]⟩
        | ok m₂ =>
            obtain ⟨e, he⟩ := ih ⟨b, htail, ts, hts, hfi⟩ m₂
            exact ⟨e, by simp [findGo, hp, he]⟩

lemma triggerGo_parse_failure (commandOutput : String → String) :
    ∀ (l : List String),
    (∃ s ∈ l, backupRequestMatches (commandOutput s).toList = []) →
    ∀ acc, ∃ e, triggerGo commandOutput acc l = .error e := by
  intro l
  induction l with
  | nil =>
      intro h acc
      rcases h with ⟨s, hs, _⟩
      simp at hs
  | cons a rest ih =>
      intro h acc
      rcases h with ⟨s, hs, hmatch⟩
      rcases List.mem_cons.mp hs with heq | htail
      · subst heq
        refine ⟨"IndexError: list index out of range", ?_⟩
        simp only [String.toList] at hmatch
        simp [triggerGo, triggerOne, hmatch]
      · cases ht : triggerOne commandOutput acc a with
        | error e => exact ⟨e, by simp [triggerGo, ht]⟩
        | ok acc₁ =>
            obtain ⟨e, he⟩ := ih ⟨s, htail, hmatch⟩ acc₁
            exact ⟨e, by simp [triggerGo, ht, he]⟩

/-! ## Claim theorems -/

/-- C1: for every record with a present, well-formed `startTimestamp`
(and a `Schedule`-kind owner reference so that inclusion is observable in
the returned dictionary), the classifier includes the record exactly when
its phase is one of `PartiallyFailed`, `Failed` and its age `now - start`
is at most the window (inclusive boundary; a future `startTimestamp` gives
a negative age and is included); any other phase is excluded regardless of
the timestamp. -/
theorem inclusion_rule (w now start : Int) (phase : Option String)
    (s n : String) :
    find_failed_backup_schedules
        [⟨some ⟨some n, some [⟨some "Schedule", some s⟩], none⟩,
          some ⟨phase, some (.wellFormed start)⟩⟩] w now
      = Except.ok
          (if (phase = some "PartiallyFailed" ∨ phase = some "Failed")
                ∧ now - start ≤ 3600 * w
            then [(some s, [n])] else []) := by
  rcases phase with _ | p
  · simp [find_failed_backup_schedules, findGo, processBackup, fromisoformat,
      phaseInFailedPhases]
  · by_cases h1 : p = "PartiallyFailed"
    · subst h1
      by_cases h3 : now - start ≤ 3600 * w
      · simp [find_failed_backup_schedules, findGo, processBackup,
          fromisoformat, timedeltaHours, processOwnerReferences,
          setdefaultAppend, phaseInFailedPhases, PHASES, h3]
      · simp [find_failed_backup_schedules, findGo, processBackup,
          fromisoformat, timedeltaHours, phaseInFailedPhases, PHASES, h3]
    · by_cases h2 : p = "Failed"
      · subst h2
        by_cases h3 : now - start ≤ 3600 * w
        · simp [find_failed_backup_schedules, findGo, processBackup,
            fromisoformat, timedeltaHours, processOwnerReferences,
            setdefaultAppend, phaseInFailedPhases, PHASES, h3]
        · simp [find_failed_backup_schedules, findGo, processBackup,
            fromisoformat, timedeltaHours, phaseInFailedPhases, PHASES, h3]
      · have hp : phaseInFailedPhases (some p) = false := by
          simp [phaseInFailedPhases, PHASES, List.contains_eq_any_beq, h1, h2]
        simp [find_failed_backup_schedules, findGo, processBackup,
          fromisoformat, hp, h1, h2]

/-- C9: for every input list, window and fixed `now`, classifying the same
list twice yields identical results; moreover the result depends only on
the fields the classifier reads (erasing the `labels` mapping, which it
never reads, changes nothing).  I/O-freedom and non-mutation of the input
hold by construction of the pure embedding. -/
theorem classification_deterministic (l : List Backup) (w now : Int) :
    find_failed_backup_schedules l w now
        = find_failed_backup_schedules l w now ∧
      find_failed_backup_schedules (l.map eraseLabels) w now
        = find_failed_backup_schedules l w now :=
  ⟨rfl, findGo_eraseLabels w now [] l⟩

/-- C2 counterexample: a failed, in-window record with no owner references
but a `schedule: daily` label is not attributed to `daily` — the
classifier returns the empty dictionary, so the label fallback claimed by
the specification does not exist in the code. -/
theorem label_fallback_cex :
    ¬ attributed (find_failed_backup_schedules [labelOnlyRecord] 24 0)
        (some "daily") "b1" := by
  rintro ⟨m, hm, vs, hmem, hv⟩
  have h0 : (Except.ok ([] : RecentFailures) : Except String RecentFailures)
      = Except.ok m := hm
  injection h0 with h1
  subst h1
  simp at hmem

/-- C3 counterexample: a failed, in-window record with neither owner
references nor labels appears nowhere in the result — it is silently
dropped rather than attributed to an `unknown` sentinel schedule. -/
theorem unattributed_cex :
    ¬ ∃ k, attributed (find_failed_backup_schedules [orphanRecord] 24 0)
        k "b1" := by
  rintro ⟨k, m, hm, vs, hmem, hv⟩
  have h0 : (Except.ok ([] : RecentFailures) : Except String RecentFailures)
      = Except.ok m := hm
  injection h0 with h1
  subst h1
  simp at hmem

/-- C5 counterexample: one malformed `startTimestamp` aborts the whole
pass — the classifier raises `ValueError` and the well-formed failed
record `good` in the same list is not classified. -/
theorem malformed_timestamp_cex :
    find_failed_backup_schedules [malformedRecord, okRecord] 24 0
        = Except.error "ValueError: invalid isoformat string" ∧
      ¬ attributed (find_failed_backup_schedules [malformedRecord, okRecord] 24 0)
          (some "daily") "good" := by
  refine ⟨rfl, ?_⟩
  rintro ⟨m, hm, vs, hmem, hv⟩
  have h0 : (Except.error "ValueError: invalid isoformat string"
      : Except String RecentFailures) = Except.ok m := hm
  cases h0

/-- C6 counterexample: when the external command's output for schedule
`s1` has no `Backup request "..."` match, the whole trigger pass raises
`IndexError`; schedule `s2` later in the list is not triggered and no list
of new backups is returned. -/
theorem trigger_parse_failure_cex :
    trigger_backups_from_schedules failingOutput ["s1", "s2"]
        = Except.error "IndexError: list index out of range" ∧
      ¬ ∃ bs, trigger_backups_from_schedules failingOutput ["s1", "s2"]
          = Except.ok bs ∧ "b2-20240101" ∈ bs := by
  refine ⟨rfl, ?_⟩
  rintro ⟨bs, hbs, hv⟩
  have h0 : (Except.error "IndexError: list index out of range"
      : Except String (List String)) = Except.ok bs := hbs
  cases h0

/-- C8 counterexample: a failed, in-window record with two `Schedule`-kind
owner references carrying distinct names contributes its own name twice to
the flattened collection of failed backup names, so the backup-name
collection is not deduplicated. -/
theorem backup_name_dedup_cex :
    find_failed_backup_schedules [twoOwnersRecord] 24 0
        = Except.ok [(some "s1", ["b1"]), (some "s2", ["b1"])] ∧
      (allBackupNames [(some "s1", ["b1"]), (some "s2", ["b1"])]).count "b1"
        = 2 :=
  ⟨rfl, rfl⟩

/-- C10 counterexample: a record whose `status.phase` is absent but whose
present `startTimestamp` is malformed makes the classifier raise
`ValueError` instead of excluding the record without error. -/
theorem missing_phase_cex :
    (missingPhaseRecord.status.getD emptyStatus).phase = none ∧
      find_failed_backup_schedules [missingPhaseRecord] 24 0
        = Except.error "ValueError: invalid isoformat string" :=
  ⟨rfl, rfl⟩

/-- C2 amended: a failed, in-window record with no owner reference of kind
`Schedule` contributes nothing to the classification result even when it
carries a `schedule` label — the classifier never reads labels, so there is
no label fallback. -/
theorem schedule_label_ignored (w now : Int) (pre post : List Backup)
    (b : Backup)
    (hrefs : ∀ ref ∈ (b.metadata.getD emptyMetadata).ownerReferences.getD [],
      ref.kind ≠ some "Schedule")
    (hlab : ∃ md lbls, b.metadata = some md ∧ md.labels = some lbls ∧
      ∃ v, ("schedule", v) ∈ lbls)
    (hts : ∀ ts, (b.status.getD emptyStatus).startTimestamp = some ts →
      fromisoformat ts ≠ none) :
    find_failed_backup_schedules (pre ++ b :: post) w now =
      find_failed_backup_schedules (pre ++ post) w now :=
  find_skip w now b pre post (processBackup_skip w now b hts hrefs)

/-- C2 witness: the labelled record `labelOnlyRecord` is dropped — the
result over the singleton list equals the result over the empty list. -/
theorem schedule_label_ignored_witness :
    find_failed_backup_schedules [labelOnlyRecord] 24 0 =
      find_failed_backup_schedules [] 24 0 :=
  schedule_label_ignored 24 0 [] [] labelOnlyRecord
    (by decide)
    ⟨⟨some "b1", none, some [("schedule", "daily")]⟩,
      [("schedule", "daily")], rfl, rfl, "daily", by decide⟩
    (by
      intro ts h
      have h2 : some (TimeStr.wellFormed 0) = some ts := h
      injection h2 with h3
      subst h3
      simp [fromisoformat])

/-- C3 amended: a failed, in-window record with neither a `Schedule`-kind
owner reference nor a `schedule` label is silently dropped — it contributes
nothing to the result (no `unknown` sentinel exists in the code), and
consequently no trigger attempt arises from it. -/
theorem unattributed_dropped (w now : Int) (pre post : List Backup)
    (b : Backup)
    (hrefs : ∀ ref ∈ (b.metadata.getD emptyMetadata).ownerReferences.getD [],
      ref.kind ≠ some "Schedule")
    (hnolab : ∀ md lbls, b.metadata = some md → md.labels = some lbls →
      ∀ v, ("schedule", v) ∉ lbls)
    (hts : ∀ ts, (b.status.getD emptyStatus).startTimestamp = some ts →
      fromisoformat ts ≠ none) :
    find_failed_backup_schedules (pre ++ b :: post) w now =
      find_failed_backup_schedules (pre ++ post) w now :=
  find_skip w now b pre post (processBackup_skip w now b hts hrefs)

/-- C3 witness: the unattributed record `orphanRecord` is dropped — the
result over the singleton list equals the result over the empty list. -/
theorem unattributed_dropped_witness :
    find_failed_backup_schedules [orphanRecord] 24 0 =
      find_failed_backup_schedules [] 24 0 :=
  unattributed_dropped 24 0 [] [] orphanRecord
    (by decide)
    (by
      intro md lbls hmd hl
      have h2 : (none : Option (List (String × String))) = some lbls := by
        have h3 : orphanRecord.metadata = some md := hmd
        injection h3 with h4
        rw [← h4] at hl
        exact hl
      cases h2)
    (by
      intro ts h
      have h2 : some (TimeStr.wellFormed 0) = some ts := h
      injection h2 with h3
      subst h3
      simp [fromisoformat])

/-- C4: for every record in the list that passes the failed-phase and
window checks and carries a metadata name, every owner reference of kind
`Schedule` contributes an attribution — the reference's name is a key of
the resulting dictionary and the record's name is in its list. -/
theorem every_schedule_owner_attributed (l : List Backup) (w now : Int)
    (m : RecentFailures)
    (hfind : find_failed_backup_schedules l w now = Except.ok m)
    (b : Backup) (hb : b ∈ l)
    (st : BackupStatus) (hstat : b.status = some st)
    (ts : TimeStr) (hts : st.startTimestamp = some ts)
    (start : Int) (hfi : fromisoformat ts = some start)
    (hph : st.phase = some "PartiallyFailed" ∨ st.phase = some "Failed")
    (hw : now - start ≤ 3600 * w)
    (md : Metadata) (hmd : b.metadata = some md)
    (n : String) (hn : md.name = some n)
    (ref : OwnerReference) (href : ref ∈ md.ownerReferences.getD [])
    (hkind : ref.kind = some "Schedule") :
    ∃ vs, (ref.name, vs) ∈ m ∧ n ∈ vs := by
  have hph2 : phaseInFailedPhases st.phase = true :=
    (phaseInFailedPhases_iff st.phase).mpr hph
  have hw2 : now - start ≤ timedeltaHours w := by
    simpa [timedeltaHours] using hw
  exact findGo_adds w now b st hstat ts hts start hfi hph2 hw2 md hmd n hn
    ref href hkind l [] m hfind hb

/-- C4 witness: the record with two `Schedule`-kind owner references is
attributed to `s2` (the second of them) in the concrete run. -/
theorem every_schedule_owner_attributed_witness :
    ∃ vs, ((some "s2" : Option String), vs) ∈
        [((some "s1" : Option String), ["b1"]), (some "s2", ["b1"])] ∧
      "b1" ∈ vs :=
  every_schedule_owner_attributed [twoOwnersRecord] 24 0
    [(some "s1", ["b1"]), (some "s2", ["b1"])] rfl
    twoOwnersRecord (by simp)
    ⟨some "Failed", some (.wellFormed 0)⟩ rfl
    (.wellFormed 0) rfl
    0 rfl
    (Or.inr rfl)
    (by decide)
    ⟨some "b1",
      some [⟨some "Schedule", some "s1"⟩, ⟨some "Schedule", some "s2"⟩],
      none⟩ rfl
    "b1" rfl
    ⟨some "Schedule", some "s2"⟩ (by decide)
    rfl

/-- C10 amended: a record whose `status` mapping is entirely absent, or
whose `status.phase` is absent while its `startTimestamp` is absent or
well-formed, is excluded without error and contributes nothing; an absent
phase does not protect against a malformed present `startTimestamp`, which
raises. -/
theorem missing_status_phase_total (w now : Int) (pre post : List Backup)
    (b : Backup)
    (h : b.status = none ∨ ((b.status.getD emptyStatus).phase = none ∧
      ∀ ts, (b.status.getD emptyStatus).startTimestamp = some ts →
        fromisoformat ts ≠ none)) :
    find_failed_backup_schedules (pre ++ b :: post) w now =
      find_failed_backup_schedules (pre ++ post) w now := by
  refine find_skip w now b pre post ?_
  intro m
  rcases h with h1 | ⟨hph, hts⟩
  · unfold processBackup
    simp [h1, emptyStatus]
  · unfold processBackup
    cases hst : (b.status.getD emptyStatus).startTimestamp with
    | none => rfl
    | some ts =>
        cases hfi : fromisoformat ts with
        | none => exact absurd hfi (hts ts hst)
        | some start =>
            have hg : phaseInFailedPhases (b.status.getD emptyStatus).phase
                = false := by rw [hph]; rfl
            simp [hfi, hg]

/-- C10 witness: a record with no `status` mapping is skipped and the rest
of the list is still classified. -/
theorem missing_status_phase_total_witness :
    find_failed_backup_schedules [noStatusRecord, okRecord] 24 0 =
      find_failed_backup_schedules [okRecord] 24 0 :=
  missing_status_phase_total 24 0 [] [okRecord] noStatusRecord (Or.inl rfl)

/-- C5 amended: a present malformed `startTimestamp` anywhere in the list
makes the classifier raise and abort the whole pass — no dictionary is
returned for any record. -/
theorem malformed_timestamp_aborts (l : List Backup) (w now : Int)
    (h : ∃ b ∈ l, ∃ ts,
      (b.status.getD emptyStatus).startTimestamp = some ts ∧
      fromisoformat ts = none) :
    ¬ ∃ m, find_failed_backup_schedules l w now = Except.ok m := by
  rintro ⟨m, hm⟩
  obtain ⟨e, he⟩ := findGo_malformed w now l h []
  unfold find_failed_backup_schedules at hm
  rw [he] at hm
  cases hm

/-- C5 witness: a list with a well-formed failed record followed by a
malformed one yields no classification result. -/
theorem malformed_timestamp_aborts_witness :
    ¬ ∃ m, find_failed_backup_schedules [okRecord, malformedRecord] 24 0
        = Except.ok m :=
  malformed_timestamp_aborts [okRecord, malformedRecord] 24 0
    ⟨malformedRecord, by simp, .malformed "not-a-timestamp", rfl, rfl⟩

/-- C6 amended: when the external command output for some schedule in the
list has no `Backup request "..."` match, the trigger pass raises
`IndexError` and aborts — no list of new backups is returned, so the
remaining schedules are not all triggered. -/
theorem trigger_parse_failure_aborts (commandOutput : String → String)
    (l : List String)
    (h : ∃ s ∈ l, backupRequestMatches (commandOutput s).toList = []) :
    ¬ ∃ bs, trigger_backups_from_schedules commandOutput l
        = Except.ok bs := by
  rintro ⟨bs, hbs⟩
  obtain ⟨e, he⟩ := triggerGo_parse_failure commandOutput l h []
  unfold trigger_backups_from_schedules at hbs
  rw [he] at hbs
  cases hbs

/-- C6 witness: with the concrete failing oracle, triggering `s2` then
`s1` returns no list of new backups. -/
theorem trigger_parse_failure_aborts_witness :
    ¬ ∃ bs, trigger_backups_from_schedules failingOutput ["s2", "s1"]
        = Except.ok bs :=
  trigger_parse_failure_aborts failingOutput ["s2", "s1"]
    ⟨"s1", by simp, rfl⟩

lemma memPair_of_setdefaultAppend (m : RecentFailures)
    (k₁ : Option String) (v₁ : String) {k : Option String} {v : String}
    (h : MemPair (setdefaultAppend m k₁ v₁) k v) :
    MemPair m k v ∨ (k = k₁ ∧ v = v₁) := by
  induction m with
  | nil =>
      rcases h with ⟨vs, hmem, hv⟩
      simp only [setdefaultAppend, List.mem_singleton, Prod.mk.injEq]
        at hmem
      obtain ⟨hk, hvs⟩ := hmem
      rw [hvs] at hv
      simp only [List.mem_singleton] at hv
      exact Or.inr ⟨hk, hv⟩
  | cons p rest ih =>
      obtain ⟨k₀, vs₀⟩ := p
      rcases h with ⟨vs, hmem, hv⟩
      by_cases hk0 : k₀ = k₁
      · simp only [setdefaultAppend, if_pos hk0] at hmem
        rcases List.mem_cons.mp hmem with heq | htail
        · injection heq with hk hvs
          subst hvs
          rcases List.mem_append.mp hv with h1 | h2
          · refine Or.inl ⟨vs₀, ?_, h1⟩
            rw [hk]
            exact List.mem_cons_self _ _
          · simp only [List.mem_singleton] at h2
            exact Or.inr ⟨hk.trans hk0, h2⟩
        · exact Or.inl ⟨vs, List.mem_cons_of_mem _ htail, hv⟩
      · simp only [setdefaultAppend, if_neg hk0] at hmem
        rcases List.mem_cons.mp hmem with heq | htail
        · refine Or.inl ⟨vs, ?_, hv⟩
          rw [heq]
          exact List.mem_cons_self _ _
        · rcases ih ⟨vs, htail, hv⟩ with h1 | h2
          · rcases h1 with ⟨vs₂, hm₂, hv₂⟩
            exact Or.inl ⟨vs₂, List.mem_cons_of_mem _ hm₂, hv₂⟩
          · exact Or.inr h2

lemma processOwnerReferences_sound (b : Backup)
    (refs : List OwnerReference) :
    ∀ m m₁, processOwnerReferences b m refs = .ok m₁ →
      ∀ k v, MemPair m₁ k v →
      MemPair m k v ∨ ∃ md, b.metadata = some md ∧ md.name = some v ∧
        ∃ ref ∈ refs, ref.kind = some "Schedule" ∧ ref.name = k := by
  induction refs with
  | nil =>
      intro m m₁ h k v hm
      simp only [processOwnerReferences] at h
      injection h with h1
      exact Or.inl (h1 ▸ hm)
  | cons r rest ih =>
      intro m m₁ h k v hm
      by_cases hr : r.kind = some "Schedule"
      · simp only [processOwnerReferences, if_pos hr] at h
        cases hmd : b.metadata with
        | none => simp [hmd] at h
        | some md =>
            cases hn : md.name with
            | none => simp [hmd, hn] at h
            | some n =>
                simp only [hmd, hn] at h
                rcases ih _ _ h k v hm with h1 | h2
                · rcases memPair_of_setdefaultAppend m r.name n h1
                    with h3 | ⟨hk, hv⟩
                  · exact Or.inl h3
                  · refine Or.inr ⟨md, rfl, ?_, r,
                      List.mem_cons_self _ _, hr, hk.symm⟩
                    rw [hv]
                    exact hn
                · rcases h2 with ⟨md₂, hmd₂, hn₂, ref, href, hkind, hname⟩
                  exact Or.inr ⟨md₂, hmd.symm.trans hmd₂, hn₂, ref,
                    List.mem_cons_of_mem _ href, hkind, hname⟩
      · simp only [processOwnerReferences, if_neg hr] at h
        rcases ih _ _ h k v hm with h1 | h2
        · exact Or.inl h1
        · rcases h2 with ⟨md₂, hmd₂, hn₂, ref, href, hkind, hname⟩
          exact Or.inr ⟨md₂, hmd₂, hn₂, ref,
            List.mem_cons_of_mem _ href, hkind, hname⟩

lemma processBackup_sound (w now : Int) (b : Backup)
    (m m₁ : RecentFailures) (h : processBackup w now m b = .ok m₁)
    (k : Option String) (v : String) (hm : MemPair m₁ k v) :
    MemPair m k v ∨ JustifiedBy w now b k v := by
  unfold processBackup at h
  cases hts : (b.status.getD emptyStatus).startTimestamp with
  | none =>
      simp [hts] at h
      exact Or.inl (h ▸ hm)
  | some ts =>
      cases hfi : fromisoformat ts with
      | none => simp [hts, hfi] at h
      | some start =>
          simp only [hts, hfi] at h
          by_cases hg : (phaseInFailedPhases
              (b.status.getD emptyStatus).phase
              && decide (now - start ≤ timedeltaHours w)) = true
          · simp only [hg, if_true] at h
            rcases processOwnerReferences_sound b _ _ _ h k v hm
              with h1 | h2
            · exact Or.inl h1
            · rcases h2 with ⟨md, hmd, hn, ref, href, hkind, hname⟩
              have hg2 : phaseInFailedPhases
                    (b.status.getD emptyStatus).phase = true ∧
                  decide (now - start ≤ timedeltaHours w) = true := by
                simpa [Bool.and_eq_true] using hg
              rcases hg2 with ⟨hph, hle⟩
              refine Or.inr ⟨⟨ts, start, hts, hfi,
                (phaseInFailedPhases_iff _).mp hph,
                of_decide_eq_true hle⟩, md, hmd, hn, ref, ?_, hkind, hname⟩
              simp only [hmd, Option.getD_some] at href
              exact href
          · simp only [Bool.not_eq_true] at hg
            simp only [hg, Bool.false_eq_true, if_false] at h
            injection h with h1
            exact Or.inl (h1 ▸ hm)

lemma findGo_sound (w now : Int) : ∀ (l : List Backup) m₀ m,
    findGo w now m₀ l = .ok m → ∀ k v, MemPair m k v →
    MemPair m₀ k v ∨ ∃ b ∈ l, JustifiedBy w now b k v := by
  intro l
  induction l with
  | nil =>
      intro m₀ m h k v hm
      simp only [findGo] at h
      injection h with h1
      exact Or.inl (h1 ▸ hm)
  | cons a rest ih =>
      intro m₀ m h k v hm
      simp only [findGo] at h
      cases hp : processBackup w now m₀ a with
      | error e => simp [hp] at h
      | ok m₂ =>
          simp only [hp] at h
          rcases ih m₂ m h k v hm with h1 | ⟨b, hb, hj⟩
          · rcases processBackup_sound w now a m₀ m₂ hp k v h1
              with h2 | hj
            · exact Or.inl h2
            · exact Or.inr ⟨a, List.mem_cons_self _ _, hj⟩
          · exact Or.inr ⟨b, List.mem_cons_of_mem _ hb, hj⟩

lemma valuesNonempty_setdefaultAppend (m : RecentFailures)
    (k : Option String) (v : String) (h : ValuesNonempty m) :
    ValuesNonempty (setdefaultAppend m k v) := by
  induction m with
  | nil =>
      intro p hp
      simp only [setdefaultAppend, List.mem_singleton] at hp
      subst hp
      simp
  | cons q rest ih =>
      obtain ⟨k₀, vs₀⟩ := q
      by_cases hk : k₀ = k
      · intro p hp
        simp only [setdefaultAppend, if_pos hk] at hp
        rcases List.mem_cons.mp hp with heq | htail
        · subst heq
          simp
        · exact h p (List.mem_cons_of_mem _ htail)
      · intro p hp
        simp only [setdefaultAppend, if_neg hk] at hp
        rcases List.mem_cons.mp hp with heq | htail
        · subst heq
          exact h _ (List.mem_cons_self _ _)
        · have hrest : ValuesNonempty rest :=
            fun q hq => h q (List.mem_cons_of_mem _ hq)
          exact ih hrest p htail

lemma processOwnerReferences_valuesNonempty (b : Backup)
    (refs : List OwnerReference) :
    ∀ m m₁, processOwnerReferences b m refs = .ok m₁ →
      ValuesNonempty m → ValuesNonempty m₁ := by
  induction refs with
  | nil =>
      intro m m₁ h hm
      simp only [processOwnerReferences] at h
      injection h with h1
      exact h1 ▸ hm
  | cons r rest ih =>
      intro m m₁ h hm
      by_cases hr : r.kind = some "Schedule"
      · simp only [processOwnerReferences, if_pos hr] at h
        cases hmd : b.metadata with
        | none => simp [hmd] at h
        | some md =>
            cases hn : md.name with
            | none => simp [hmd, hn] at h
            | some n =>
                simp only [hmd, hn] at h
                exact ih _ _ h (valuesNonempty_setdefaultAppend m r.name n hm)
      · simp only [processOwnerReferences, if_neg hr] at h
        exact ih _ _ h hm

lemma processBackup_valuesNonempty (w now : Int) (b : Backup)
    (m m₁ : RecentFailures) (h : processBackup w now m b = .ok m₁)
    (hm : ValuesNonempty m) : ValuesNonempty m₁ := by
  unfold processBackup at h
  cases hts : (b.status.getD emptyStatus).startTimestamp with
  | none =>
      simp [hts] at h
      exact h ▸ hm
  | some ts =>
      cases hfi : fromisoformat ts with
      | none => simp [hts, hfi] at h
      | some start =>
          simp only [hts, hfi] at h
          by_cases hg : (phaseInFailedPhases
              (b.status.getD emptyStatus).phase
              && decide (now - start ≤ timedeltaHours w)) = true
          · simp only [hg, if_true] at h
            exact processOwnerReferences_valuesNonempty b _ _ _ h hm
          · simp only [Bool.not_eq_true] at hg
            simp only [hg, Bool.false_eq_true, if_false] at h
            injection h with h1
            exact h1 ▸ hm

lemma findGo_valuesNonempty (w now : Int) : ∀ (l : List Backup) m₀ m,
    findGo w now m₀ l = .ok m → ValuesNonempty m₀ → ValuesNonempty m := by
  intro l
  induction l with
  | nil =>
      intro m₀ m h hm
      simp only [findGo] at h
      injection h with h1
      exact h1 ▸ hm
  | cons a rest ih =>
      intro m₀ m h hm
      simp only [findGo] at h
      cases hp : processBackup w now m₀ a with
      | error e => simp [hp] at h
      | ok m₂ =>
          simp only [hp] at h
          exact ih m₂ m h (processBackup_valuesNonempty w now a m₀ m₂ hp hm)

/-- C7: soundness of the classification — when the pass completes, every
entry of the returned dictionary has a nonempty list of backup names, and
every (schedule key, backup name) pair it contains is justified by some
input record whose phase is in the failed set, whose start time parses and
falls inside the window, and which carries a `Schedule`-kind owner
reference with that key. -/
theorem classification_sound (l : List Backup) (w now : Int)
    (m : RecentFailures)
    (hfind : find_failed_backup_schedules l w now = Except.ok m) :
    ∀ p ∈ m, p.2 ≠ [] ∧
      ∀ v ∈ p.2, ∃ b ∈ l, JustifiedBy w now b p.1 v := by
  intro p hp
  obtain ⟨k, vs⟩ := p
  constructor
  · exact findGo_valuesNonempty w now l [] m hfind
      (by intro q hq; simp at hq) (k, vs) hp
  · intro v hv
    rcases findGo_sound w now l [] m hfind k v ⟨vs, hp, hv⟩
      with h1 | h2
    · rcases h1 with ⟨vs₂, hmem, _⟩
      simp at hmem
    · exact h2

/-- C7 witness: in the concrete run over `okRecord` the pair
(`daily`, `good`) of the result is justified by a record of the input. -/
theorem classification_sound_witness :
    ∃ b ∈ [okRecord], JustifiedBy 24 0 b (some "daily") "good" :=
  (classification_sound [okRecord] 24 0 [(some "daily", ["good"])] rfl
    (some "daily", ["good"]) (by simp)).2 "good" (by simp)

lemma keys_setdefaultAppend (m : RecentFailures) (k : Option String)
    (v : String) :
    (setdefaultAppend m k v).map Prod.fst =
      if k ∈ m.map Prod.fst then m.map Prod.fst
      else m.map Prod.fst ++ [k] := by
  induction m with
  | nil => simp [setdefaultAppend]
  | cons p rest ih =>
      obtain ⟨k₀, vs₀⟩ := p
      by_cases hk : k₀ = k
      · subst hk
        simp [setdefaultAppend]
      · simp only [setdefaultAppend, if_neg hk, List.map_cons, ih]
        have hne : ¬ k = k₀ := fun h => hk h.symm
        by_cases hm : k ∈ rest.map Prod.fst
        · rw [if_pos hm, if_pos (List.mem_cons_of_mem _ hm)]
        · rw [if_neg hm, if_neg ?_, List.cons_append]
          intro hmem
          rcases List.mem_cons.mp hmem with heq | htail
          · exact hne heq
          · exact hm htail

lemma nodupKeys_setdefaultAppend (m : RecentFailures) (k : Option String)
    (v : String) (h : (m.map Prod.fst).Nodup) :
    ((setdefaultAppend m k v).map Prod.fst).Nodup := by
  rw [keys_setdefaultAppend]
  by_cases hm : k ∈ m.map Prod.fst
  · rwa [if_pos hm]
  · rw [if_neg hm]
    rw [List.nodup_append]
    exact ⟨h, List.nodup_singleton _, by simpa using hm⟩

lemma processOwnerReferences_nodupKeys (b : Backup)
    (refs : List OwnerReference) :
    ∀ m m₁, processOwnerReferences b m refs = .ok m₁ →
      (m.map Prod.fst).Nodup → (m₁.map Prod.fst).Nodup := by
  induction refs with
  | nil =>
      intro m m₁ h hm
      simp only [processOwnerReferences] at h
      injection h with h1
      exact h1 ▸ hm
  | cons r rest ih =>
      intro m m₁ h hm
      by_cases hr : r.kind = some "Schedule"
      · simp only [processOwnerReferences, if_pos hr] at h
        cases hmd : b.metadata with
        | none => simp [hmd] at h
        | some md =>
            cases hn : md.name with
            | none => simp [hmd, hn] at h
            | some n =>
                simp only [hmd, hn] at h
                exact ih _ _ h (nodupKeys_setdefaultAppend m r.name n hm)
      · simp only [processOwnerReferences, if_neg hr] at h
        exact ih _ _ h hm

lemma processBackup_nodupKeys (w now : Int) (b : Backup)
    (m m₁ : RecentFailures) (h : processBackup w now m b = .ok m₁)
    (hm : (m.map Prod.fst).Nodup) : (m₁.map Prod.fst).Nodup := by
  unfold processBackup at h
  cases hts : (b.status.getD emptyStatus).startTimestamp with
  | none =>
      simp [hts] at h
      exact h ▸ hm
  | some ts =>
      cases hfi : fromisoformat ts with
      | none => simp [hts, hfi] at h
      | some start =>
          simp only [hts, hfi] at h
          by_cases hg : (phaseInFailedPhases
              (b.status.getD emptyStatus).phase
              && decide (now - start ≤ timedeltaHours w)) = true
          · simp only [hg, if_true] at h
            exact processOwnerReferences_nodupKeys b _ _ _ h hm
          · simp only [Bool.not_eq_true] at hg
            simp only [hg, Bool.false_eq_true, if_false] at h
            injection h with h1
            exact h1 ▸ hm

lemma findGo_nodupKeys (w now : Int) : ∀ (l : List Backup) m₀ m,
    findGo w now m₀ l = .ok m → (m₀.map Prod.fst).Nodup →
    (m.map Prod.fst).Nodup := by
  intro l
  induction l with
  | nil =>
      intro m₀ m h hm
      simp only [findGo] at h
      injection h with h1
      exact h1 ▸ hm
  | cons a rest ih =>
      intro m₀ m h hm
      simp only [findGo] at h
      cases hp : processBackup w now m₀ a with
      | error e => simp [hp] at h
      | ok m₂ =>
          simp only [hp] at h
          exact ih m₂ m h (processBackup_nodupKeys w now a m₀ m₂ hp hm)

/-- C8 amended: when the pass completes, the schedule names (keys) of the
returned dictionary are distinct — a Python dict coalesces duplicates; the
backup-name collection, however, is not deduplicated (see the
counterexample: one record contributes its name once per matching
`Schedule`-kind owner reference). -/
theorem schedule_keys_nodup (l : List Backup) (w now : Int)
    (m : RecentFailures)
    (hfind : find_failed_backup_schedules l w now = Except.ok m) :
    (m.map Prod.fst).Nodup :=
  findGo_nodupKeys w now l [] m hfind (by simp)

/-- C8 witness: two failed records owned by the same schedule coalesce
into a single key in the concrete run. -/
theorem schedule_keys_nodup_witness :
    (([((some "daily" : Option String), ["good", "good"])]
      : RecentFailures).map Prod.fst).Nodup :=
  schedule_keys_nodup [okRecord, okRecord] 24 0
    [(some "daily", ["good", "good"])] rfl

end VeleroWatchdog
